import Mathlib

/-!
Shallow embedding of `src/lib/segment/src/index/hnsw_index/graph_linear_builder.rs`
(the HNSW `GraphLinearBuilder`).

Point ids (`PointOffsetType`) are modelled as `Nat`, similarity scores as `Int`
(the claims settled here do not depend on floating-point specifics; a score is
only ever compared or carried around).  Collaborating components that live
outside `src/` (`FilteredScorer`, `EntryPoints`, `SearchContext`,
`FixedLengthPriorityQueue`, `VisitedList`, `rev_range`) are modelled from the
spec, as marked on each such definition.  Fallible code paths (`usize`
underflow / out-of-bounds panics in `get_point_level`) are returned as
`Option`.  All loops are written with an explicit fuel that is computed large
enough; the termination claim is then the theorem that this fuel is never
exhausted.
-/

/-- Scored point, mirroring `ScoredPointOffset { idx, score }`.  Rust orders
these values by `score`; every comparison below is on `score` alone. -/
structure ScoredPointOffset where
  idx : Nat
  score : Int
deriving Repr, DecidableEq

/-- Modelled from the spec: the scorer contract of section 6
(`FilteredScorer` of `point_scorer.rs`, which is not under `src/`):
`check_vector` is the admissibility test, `score_point` scores a stored point
against the implicit query, `score_internal` scores two stored points against
each other.  All functions are total and deterministic. -/
structure FilteredScorer where
  checkVector : Nat → Bool
  scorePoint : Nat → Int
  scoreInternal : Nat → Nat → Int

/-- Modelled from the spec: `FilteredScorer::score_points` (section 6) scores a
batch of ids against the implicit query, dropping inadmissible ids; per
section 4.4.2 the `limit` argument is a batch-size hint for the scorer, not a
correctness bound, so the model does not truncate. -/
def FilteredScorer.scorePoints (s : FilteredScorer) (ids : List Nat) (_limit : Nat) :
    List ScoredPointOffset :=
  (ids.filter s.checkVector).map (fun i => ⟨i, s.scorePoint i⟩)

/-- Modelled from the spec: an entry-point record of `EntryPoints`
(`entry_points.rs`, not under `src/`): a `(point_id, level)` pair. -/
structure EntryPoint where
  pointId : Nat
  level : Nat
deriving Repr, DecidableEq

/-- Modelled from the spec: `EntryPoints` (section 4.3, `entry_points.rs` is
not under `src/`).  The spec keeps one slot per distinct filter class; the
embedding models the single-filter-class case, which is the case exercised by
the builder's own test (`FakeFilterContext`): one optional slot. -/
structure EntryPoints where
  slot : Option EntryPoint
deriving Repr, DecidableEq

/-- Modelled from the spec: a fresh `EntryPoints` holds no record. -/
def EntryPoints.empty : EntryPoints := ⟨none⟩

/-- Modelled from the spec: `EntryPoints::new_point` (section 4.3) returns the
previous record validated by the `admissible` predicate, then updates the slot
to `(p, level)` when the new level is higher or the stored point is no longer
admissible. -/
def EntryPoints.newPoint (ep : EntryPoints) (p level : Nat) (adm : Nat → Bool) :
    Option EntryPoint × EntryPoints :=
  match ep.slot with
  | none => (none, ⟨some ⟨p, level⟩⟩)
  | some e =>
    let prev := if adm e.pointId then some e else none
    let slot' := if e.level < level || !(adm e.pointId) then some ⟨p, level⟩ else some e
    (prev, ⟨slot'⟩)

/-- Modelled from the spec: `EntryPoints::get_entry_point` (section 4.3)
returns the stored record whose point passes `admissible`, or none. -/
def EntryPoints.getEntryPoint (ep : EntryPoints) (adm : Nat → Bool) : Option EntryPoint :=
  match ep.slot with
  | none => none
  | some e => if adm e.pointId then some e else none

/-- Insert into a list at an index, mirroring `Vec::insert` (the call sites
below only ever use an index that is at most the length). -/
def insAt : Nat → α → List α → List α
  | 0, a, l => a :: l
  | _ + 1, a, [] => [a]
  | n + 1, a, x :: xs => x :: insAt n a xs

/-- Apply a function to the element at an index of a list, leaving the list
unchanged when the index is out of range; this models in-place mutation of
`Vec` elements through an index. -/
def updAt : List α → Nat → (α → α) → List α
  | [], _, _ => []
  | x :: xs, 0, f => f x :: xs
  | x :: xs, n + 1, f => x :: updAt xs n f

/-- Modelled from the spec: inserting into a descending max-structure.  The
new element is placed before the first strictly smaller score, after equal
scores; this is the deterministic order the embedding fixes for the binary
heap and for `FixedLengthPriorityQueue` (both live outside `src/`). -/
def insertDesc (x : ScoredPointOffset) : List ScoredPointOffset → List ScoredPointOffset
  | [] => [x]
  | y :: ys => if y.score < x.score then x :: y :: ys else y :: insertDesc x ys

/-- Modelled from the spec: `FixedLengthPriorityQueue::push` (section 4.4.2,
`spaces/tools.rs` is not under `src/`): the queue keeps the best `cap`
elements, sorted by descending score; pushing inserts and drops the overflow
from the worst end. -/
def pushNearest (cap : Nat) (x : ScoredPointOffset) (q : List ScoredPointOffset) :
    List ScoredPointOffset :=
  (insertDesc x q).take cap

/-- Modelled from the spec: the search state of `SearchContext`
(`search_context.rs`, not under `src/`): `candidates` is the max-heap of
unexplored scored points, `nearest` the bounded best-`ef` queue. -/
structure SearchCtx where
  candidates : List ScoredPointOffset
  nearest : List ScoredPointOffset
deriving Repr, DecidableEq

/-- Modelled from the spec: `SearchContext::process_candidate` pushes a scored
point into both `nearest` and `candidates` (section 4.4.2). -/
def SearchCtx.process (ef : Nat) (ctx : SearchCtx) (x : ScoredPointOffset) : SearchCtx :=
  { candidates := insertDesc x ctx.candidates, nearest := pushNearest ef x ctx.nearest }

/-- Modelled from the spec: the lower bound exposed by `Nearest` is the score
of its worst element (section 4.4.2); `none` when the queue is empty. -/
def lowerBound (nearest : List ScoredPointOffset) : Option Int :=
  nearest.getLast?.map (fun w => w.score)

/-- The builder state, mirroring `GraphLinearBuilder`.  `links_layers` is the
`Vec<Vec<Vec<PointOffsetType>>>` of per-point per-layer neighbour lists.  The
`level_factor` field is omitted: it only feeds `get_random_layer`, whose `f64`
computation is outside this embedding; the visited pool is a per-search-fresh
bitset and appears as a local `Finset Nat` in the search functions. -/
structure GraphLinearBuilder where
  maxLevel : Nat
  m : Nat
  m0 : Nat
  efConstruct : Nat
  useHeuristic : Bool
  linksLayers : List (List (List Nat))
  entryPoints : EntryPoints
deriving Repr, DecidableEq

/-- Mirrors `GraphLinearBuilder::new`: every one of the `num_vectors` points
starts with a single empty layer-0 list.  The `reserve` flag of the source
only preallocates and has no semantic effect; `entry_points_num` caps the
number of filter-class slots, which the single-class `EntryPoints` model does
not need. -/
def GraphLinearBuilder.new (numVectors m m0 efConstruct : Nat)
    (_entryPointsNum : Nat) (useHeuristic : Bool) : GraphLinearBuilder :=
  { maxLevel := 0
    m := m
    m0 := m0
    efConstruct := efConstruct
    useHeuristic := useHeuristic
    linksLayers := List.replicate numVectors [[]]
    entryPoints := EntryPoints.empty }

/-- Mirrors `GraphLinearBuilder::get_m`: the degree cap is `m0` on layer 0 and
`m` on every other layer. -/
def GraphLinearBuilder.getM (b : GraphLinearBuilder) (level : Nat) : Nat :=
  if level = 0 then b.m0 else b.m

/-- Read access `links_layers[p][l]`; out-of-range indices (which panic in
Rust and are unreachable through the builder's API) read as the empty list. -/
def linksAt (b : GraphLinearBuilder) (p l : Nat) : List Nat :=
  (b.linksLayers.getD p []).getD l []

/-- Overwrite `links_layers[p][l]` with a list, modelling the in-place
mutations of the source (`clone_from`, `clear` plus `push`, `insert`, `pop`). -/
def setLinks (b : GraphLinearBuilder) (p l : Nat) (v : List Nat) : GraphLinearBuilder :=
  { b with linksLayers := updAt b.linksLayers p (fun layers => updAt layers l (fun _ => v)) }

/-- Mirrors `GraphLinearBuilder::get_point_level`, which computes
`links_layers[point_id].len() - 1` on `usize`.  A point whose layers container
is empty (or an out-of-range id) makes that expression underflow (panic); the
embedding returns `none` there. -/
def GraphLinearBuilder.getPointLevel (b : GraphLinearBuilder) (pointId : Nat) : Option Nat :=
  match (b.linksLayers.getD pointId []).length with
  | 0 => none
  | n + 1 => some n

/-- Mirrors `GraphLinearBuilder::set_levels`: grow the store until the point
id is in range, pushing completely empty layers containers for every created
point, then extend the point's own container with empty lists until it has
`level + 1` layers, and raise `max_level`. -/
def GraphLinearBuilder.setLevels (b : GraphLinearBuilder) (pointId level : Nat) :
    GraphLinearBuilder :=
  let grown :=
    if b.linksLayers.length ≤ pointId then
      b.linksLayers ++ List.replicate (pointId + 1 - b.linksLayers.length) []
    else b.linksLayers
  { b with
    linksLayers := updAt grown pointId
      (fun layers => layers ++ List.replicate (level + 1 - layers.length) [])
    maxLevel := max b.maxLevel level }

/-- The index the `connect_new_point` scan computes: the first position whose
entry scores strictly below the new point's score against the target, or the
length of the list when every entry scores at least as high. -/
def firstLtIdx (scorer : FilteredScorer) (target : Nat) (s : Int) : List Nat → Nat
  | [] => 0
  | x :: xs => if scorer.scoreInternal target x < s then 0 else firstLtIdx scorer target s xs + 1

/-- Mirrors `GraphLinearBuilder::connect_new_point` as a pure function on the
neighbour list: score the new point against the target, find the first
existing entry that scores strictly lower, and insert there; when the list is
at capacity, pop the tail first, and do nothing when the new point is worse
than every current entry. -/
def connectNewPoint (links : List Nat) (newPointId targetPointId levelM : Nat)
    (scorer : FilteredScorer) : List Nat :=
  let newToTarget := scorer.scoreInternal targetPointId newPointId
  let idToInsert := firstLtIdx scorer targetPointId newToTarget links
  if links.length < levelM then insAt idToInsert newPointId links
  else if idToInsert ≠ links.length then insAt idToInsert newPointId links.dropLast
  else links

/-- The loop of `select_candidate_with_heuristic_from_sorted` with its result
accumulator made explicit: stop at `m` selected, keep a candidate only when no
already-selected point scores against it strictly above its own score. -/
def selectGo (scorer : FilteredScorer) (m : Nat) :
    List ScoredPointOffset → List Nat → List Nat
  | [], acc => acc
  | c :: cs, acc =>
    if m ≤ acc.length then acc
    else if acc.all (fun x => !(c.score < scorer.scoreInternal c.idx x)) then
      selectGo scorer m cs (acc ++ [c.idx])
    else selectGo scorer m cs acc

/-- Mirrors `GraphLinearBuilder::select_candidate_with_heuristic_from_sorted`:
the hnswlib diversification heuristic over candidates sorted by descending
score. -/
def selectCandidateWithHeuristicFromSorted (candidates : List ScoredPointOffset) (m : Nat)
    (scorer : FilteredScorer) : List Nat :=
  selectGo scorer m candidates []

/-- Mirrors the visited filter inside the main loop of `search_on_level`: walk
the links in order, keep the ones whose visited bit is not yet set, setting
the bit immediately (`check_and_update_visited`), so a duplicate link is kept
only once.  Returns the kept ids and the grown visited set. -/
def collectUnvisited : List Nat → Finset Nat → List Nat × Finset Nat
  | [], visited => ([], visited)
  | l :: ls, visited =>
    if l ∈ visited then collectUnvisited ls visited
    else
      let r := collectUnvisited ls (insert l visited)
      (l :: r.1, r.2)

/-- Every id the store can ever hand to the search: the ids in range of the
store plus every id stored in some neighbour list.  Only used to size the
fuel of the search loop. -/
def storeIds (ll : List (List (List Nat))) : Finset Nat :=
  (List.range ll.length ++ ll.flatten.flatten).toFinset

/-- The stop test of the main loop of `search_on_level`: the popped candidate
scores strictly below the lower bound of `Nearest`. -/
def stopCheck (nearest : List ScoredPointOffset) (c : ScoredPointOffset) : Bool :=
  match lowerBound nearest with
  | none => false
  | some lb => c.score < lb

/-- The main loop of `GraphLinearBuilder::search_on_level`, with explicit fuel
and an iteration counter: pop the best candidate, stop when it cannot improve
the beam, otherwise visit and score its unvisited links and push them into
both structures.  Returns the final context, the visited set, the number of
loop iterations performed, and whether the loop ended on its own (`true`)
rather than by fuel exhaustion. -/
def searchLoopF (b : GraphLinearBuilder) (scorer : FilteredScorer) (level ef : Nat) :
    Nat → SearchCtx → Finset Nat → SearchCtx × Finset Nat × Nat × Bool
  | fuel, ctx, visited =>
    match ctx.candidates with
    | [] => (ctx, visited, 0, true)
    | c :: rest =>
      match fuel with
      | 0 => (ctx, visited, 0, false)
      | fuel + 1 =>
        if stopCheck ctx.nearest c then ({ ctx with candidates := rest }, visited, 1, true)
        else
          let links := linksAt b c.idx level
          let r := collectUnvisited links visited
          let scored := scorer.scorePoints r.1 (b.getM level)
          let ctx' := scored.foldl (SearchCtx.process ef) { ctx with candidates := rest }
          let rec' := searchLoopF b scorer level ef fuel ctx' r.2
          (rec'.1, rec'.2.1, rec'.2.2.1 + 1, rec'.2.2.2)

/-- The search state `SearchContext::new(level_entry, ef)` starts from: both
structures seeded with the entry point. -/
def searchInit (entry : ScoredPointOffset) (ef : Nat) : SearchCtx :=
  { candidates := [entry], nearest := pushNearest ef entry [] }

/-- The fuel `search_on_level` runs its loop with: the initial measure (one
candidate in the queue plus every store id not yet visited); the loop is
proved below to finish within this budget. -/
def searchFuel (b : GraphLinearBuilder) (entry : ScoredPointOffset) : Nat :=
  1 + ((storeIds b.linksLayers) \ {entry.idx}).card

/-- The main loop of `search_on_level` run from its initial state: entry point
visited and seeded into both structures. -/
def searchOnLevelRun (b : GraphLinearBuilder) (entry : ScoredPointOffset)
    (level ef : Nat) (scorer : FilteredScorer) : SearchCtx × Finset Nat × Nat × Bool :=
  searchLoopF b scorer level ef (searchFuel b entry) (searchInit entry ef) {entry.idx}

/-- Mirrors `GraphLinearBuilder::search_on_level`: run the main loop, then
offer every existing link whose visited bit is still clear to the search
state, scored against the query by `score_point`, and return `Nearest`. -/
def searchOnLevel (b : GraphLinearBuilder) (entry : ScoredPointOffset) (level ef : Nat)
    (scorer : FilteredScorer) (existingLinks : List Nat) : List ScoredPointOffset :=
  let r := searchOnLevelRun b entry level ef scorer
  (existingLinks.foldl
    (fun ctx el =>
      if el ∈ r.2.1 then ctx else SearchCtx.process ef ctx ⟨el, scorer.scorePoint el⟩)
    r.1).nearest

/-- One scan of the greedy-descent inner loop: adopt every scored link that
beats the current point, in order, ending on the best of them. -/
def greedyPass (scored : List ScoredPointOffset) (current : ScoredPointOffset) :
    ScoredPointOffset :=
  scored.foldl (fun cur sp => if cur.score < sp.score then sp else cur) current

/-- The `while changed` loop of `search_entry` on one layer, with fuel: rescan
the links of the adopted point until no link improves on it.  Each adoption
strictly increases the current score, so `storeIds.card + 1` passes (the fuel
every caller supplies) always suffice. -/
def greedyLoopF (b : GraphLinearBuilder) (scorer : FilteredScorer) (level : Nat) :
    Nat → ScoredPointOffset → ScoredPointOffset
  | 0, current => current
  | fuel + 1, current =>
    let links := linksAt b current.idx level
    let scored := scorer.scorePoints links (b.getM level)
    let next := greedyPass scored current
    if current.score < next.score then greedyLoopF b scorer level fuel next else current

/-- Modelled from the spec: `rev_range(top, target)` (`common/utils.rs`, not
under `src/`) iterates the layers from `top` down to `target + 1`, empty when
`top ≤ target` (section 4.4.1). -/
def revRange (top target : Nat) : List Nat :=
  (List.range (top - target)).map (fun i => top - i)

/-- Mirrors `GraphLinearBuilder::search_entry`: greedy descent from the entry
point through the layers above the target, each layer walked until a local
maximum under the scorer. -/
def searchEntry (b : GraphLinearBuilder) (entryPoint topLevel targetLevel : Nat)
    (scorer : FilteredScorer) : ScoredPointOffset :=
  (revRange topLevel targetLevel).foldl
    (fun cur lvl => greedyLoopF b scorer lvl ((storeIds b.linksLayers).card + 1) cur)
    ⟨entryPoint, scorer.scorePoint entryPoint⟩

/-- Mirrors `GraphLinearBuilder::search`: no admissible entry point means an
empty answer; otherwise greedy-descend to layer 0 and run the beam search
there with width `max top ef`, returning the best `top` results. -/
def GraphLinearBuilder.search (b : GraphLinearBuilder) (top ef : Nat)
    (scorer : FilteredScorer) : List ScoredPointOffset :=
  match b.entryPoints.getEntryPoint scorer.checkVector with
  | none => []
  | some ep =>
    let zeroEntry := searchEntry b ep.pointId ep.level 0 scorer
    (searchOnLevel b zeroEntry 0 (max top ef) scorer []).take top

/-- Mirrors `nearest_points.iter().max()`: the maximum by score, taking the
later element on ties as Rust's `Iterator::max` does. -/
def iterMax (l : List ScoredPointOffset) : Option ScoredPointOffset :=
  l.foldl
    (fun acc x =>
      match acc with
      | none => some x
      | some a => if a.score ≤ x.score then some x else some a)
    none

/-- Sort a list of scored points by descending score; the deterministic image
of `BinaryHeap::into_sorted_vec().into_iter().rev()`. -/
def sortDesc (l : List ScoredPointOffset) : List ScoredPointOffset :=
  l.foldr insertDesc []

/-- The candidate sequence the heuristic relink of `link_new_point` rebuilds a
full neighbour's list from: the new point scored against the neighbour,
together with the first `level_m` existing links of that neighbour each scored
against it, sorted by descending score (the `BinaryHeap` of lines 166-182 of
the source). -/
def relinkCandidates (scorer : FilteredScorer) (pointId otherPoint : Nat)
    (otherLinks : List Nat) (levelM : Nat) : List ScoredPointOffset :=
  sortDesc
    (⟨pointId, scorer.scoreInternal pointId otherPoint⟩ ::
      (otherLinks.take levelM).map (fun l => ⟨l, scorer.scoreInternal l otherPoint⟩))

/-- The per-selected-neighbour update of the heuristic branch of
`link_new_point`: append the new point when the neighbour still has room,
otherwise rebuild the neighbour's list by running the heuristic over
`relinkCandidates`. -/
def relinkOther (b : GraphLinearBuilder) (pointId otherPoint currLevel levelM : Nat)
    (scorer : FilteredScorer) : GraphLinearBuilder :=
  let otherLinks := linksAt b otherPoint currLevel
  if otherLinks.length < levelM then
    setLinks b otherPoint currLevel (otherLinks ++ [pointId])
  else
    setLinks b otherPoint currLevel
      (selectCandidateWithHeuristicFromSorted
        (relinkCandidates scorer pointId otherPoint otherLinks levelM) levelM scorer)

/-- The naive-mode update of `link_new_point` for one search result: insert
the result into the new point's list, then the new point into the result's
list, both through `connect_new_point`. -/
def connectBoth (pointId currLevel levelM : Nat) (scorer : FilteredScorer)
    (b : GraphLinearBuilder) (nearestPoint : ScoredPointOffset) : GraphLinearBuilder :=
  let b1 := setLinks b pointId currLevel
    (connectNewPoint (linksAt b pointId currLevel) nearestPoint.idx pointId levelM scorer)
  setLinks b1 nearestPoint.idx currLevel
    (connectNewPoint (linksAt b1 nearestPoint.idx currLevel) pointId nearestPoint.idx
      levelM scorer)

/-- The body of the per-layer loop of `link_new_point` at one layer: beam
search seeded with the point's existing links, advance the descent entry to
the best result, then link symmetrically in heuristic or naive mode. -/
def linkOnLevel (pointId : Nat) (scorer : FilteredScorer)
    (st : GraphLinearBuilder × ScoredPointOffset) (currLevel : Nat) :
    GraphLinearBuilder × ScoredPointOffset :=
  let b := st.1
  let levelM := b.getM currLevel
  let existingLinks := linksAt b pointId currLevel
  let nearestPoints := searchOnLevel b st.2 currLevel b.efConstruct scorer existingLinks
  let levelEntry :=
    match iterMax nearestPoints with
    | some theNearest => theNearest
    | none => st.2
  if b.useHeuristic then
    let selectedNearest :=
      selectCandidateWithHeuristicFromSorted nearestPoints levelM scorer
    let b1 := setLinks b pointId currLevel selectedNearest
    let b2 := selectedNearest.foldl
      (fun acc other => relinkOther acc pointId other currLevel levelM scorer) b1
    (b2, levelEntry)
  else
    (nearestPoints.foldl (connectBoth pointId currLevel levelM scorer) b, levelEntry)

/-- Mirrors `GraphLinearBuilder::link_new_point`.  Reading the point's level
panics in Rust when the point has no layers (`len() - 1` underflow on
`usize`), so the embedding returns `none` there.  Otherwise: update
`EntryPoints`; with no previous entry there is nothing to link to; with one,
greedy-descend to the point's level when the entry is higher, then run the
per-layer loop from the minimal common level down to layer 0. -/
def linkNewPoint (b : GraphLinearBuilder) (pointId : Nat) (scorer : FilteredScorer) :
    Option GraphLinearBuilder :=
  match b.getPointLevel pointId with
  | none => none
  | some level =>
    let np := b.entryPoints.newPoint pointId level scorer.checkVector
    let b1 := { b with entryPoints := np.2 }
    match np.1 with
    | none => some b1
    | some entryPoint =>
      let levelEntry :=
        if level < entryPoint.level then
          searchEntry b1 entryPoint.pointId entryPoint.level level scorer
        else
          ⟨entryPoint.pointId, scorer.scoreInternal pointId entryPoint.pointId⟩
      let linkingLevel := min level entryPoint.level
      some
        (((List.range (linkingLevel + 1)).reverse.foldl
            (linkOnLevel pointId scorer) (b1, levelEntry)).1)

/-- One call of the builder's public mutating interface: `set_levels` or
`link_new_point` with its scorer. -/
inductive BuildOp where
  | setLevels (pointId level : Nat)
  | linkNewPoint (pointId : Nat) (scorer : FilteredScorer)

/-- Apply one call to the builder.  A `link_new_point` call that panics in
Rust (level read underflow) leaves the state unchanged here, so that every
call sequence denotes a state. -/
def applyOp (b : GraphLinearBuilder) : BuildOp → GraphLinearBuilder
  | BuildOp.setLevels p l => b.setLevels p l
  | BuildOp.linkNewPoint p scorer => (linkNewPoint b p scorer).getD b

/-- Run a sequence of builder calls from a state. -/
def runOps (b : GraphLinearBuilder) (ops : List BuildOp) : GraphLinearBuilder :=
  ops.foldl applyOp b

/-- A concrete scorer used by the closed witness and counterexample
statements below: every point is admissible, `score_point` prefers small ids,
`score_internal` prefers close ids. -/
def cScorer : FilteredScorer :=
  { checkVector := fun _ => true
    scorePoint := fun i => -(i : Int)
    scoreInternal := fun a b => -((a : Int) - (b : Int)) ^ 2 }

/-- The degree-cap invariant of claim C2 (spec invariant I1): every point's
layer-`l` neighbour list has at most `get_m(l)` entries. -/
def capInv (b : GraphLinearBuilder) : Prop :=
  ∀ p l, (linksAt b p l).length ≤ b.getM l

/-- The descending-score order the `Nearest` queue of the embedding is kept
in. -/
def scoreGe (a c : ScoredPointOffset) : Prop := c.score ≤ a.score

/-- An offered element's fate inside the bounded `Nearest` queue: it is in
the queue, or the queue is full and its worst element scores at least as
high. -/
def inQ (ef : Nat) (x : ScoredPointOffset) (q : List ScoredPointOffset) : Prop :=
  x ∈ q ∨ (q.length = ef ∧ ∀ w, q.getLast? = some w → x.score ≤ w.score)

theorem firstLtIdx_le (scorer : FilteredScorer) (target : Nat) (s : Int) (l : List Nat) :
    firstLtIdx scorer target s l ≤ l.length := by
  induction l with
  | nil => simp [firstLtIdx]
  | cons x xs ih =>
    simp only [firstLtIdx, List.length_cons]
    split
    · omega
    · omega

theorem firstLtIdx_take (scorer : FilteredScorer) (target : Nat) (s : Int) (l : List Nat) :
    ∀ x ∈ l.take (firstLtIdx scorer target s l), ¬ scorer.scoreInternal target x < s := by
  induction l with
  | nil => simp
  | cons y ys ih =>
    simp only [firstLtIdx]
    split
    · simp
    · intro x hx
      rw [List.take_succ_cons] at hx
      rcases List.mem_cons.mp hx with h1 | h2
      · subst h1; assumption
      · exact ih x h2

theorem firstLtIdx_lt (scorer : FilteredScorer) (target : Nat) (s : Int) (l : List Nat)
    (h : firstLtIdx scorer target s l < l.length) :
    scorer.scoreInternal target (l.getD (firstLtIdx scorer target s l) 0) < s := by
  induction l with
  | nil => simp [firstLtIdx] at h
  | cons y ys ih =>
    by_cases hc : scorer.scoreInternal target y < s
    · simp [firstLtIdx, hc, List.getD]
    · simp only [firstLtIdx, hc, if_false, List.length_cons] at h ⊢
      have h' : firstLtIdx scorer target s ys < ys.length := by omega
      simpa [List.getD] using ih h'

/-- Claim C3: `connect_new_point` scores the new point against the target,
takes `i` to be the first index whose existing entry scores strictly less (the
list length when no entry does, so equal-scored entries are never displaced),
inserts at `i` when the list is below the cap, pops the tail and inserts at
`i` when the list is full and `i` is inside it, and leaves a full list
unchanged when the new point is worse than every entry; on an empty list this
appends.  The index `i` is exhibited with its defining properties. -/
theorem connect_new_point_spec (scorer : FilteredScorer) (links : List Nat)
    (newPointId targetPointId levelM : Nat) :
    ∃ i, i ≤ links.length ∧
      (∀ x ∈ links.take i,
        ¬ scorer.scoreInternal targetPointId x <
            scorer.scoreInternal targetPointId newPointId) ∧
      (i < links.length →
        scorer.scoreInternal targetPointId (links.getD i 0) <
          scorer.scoreInternal targetPointId newPointId) ∧
      connectNewPoint links newPointId targetPointId levelM scorer =
        (if links.length < levelM then insAt i newPointId links
         else if i < links.length then insAt i newPointId links.dropLast
         else links) := by
  refine ⟨firstLtIdx scorer targetPointId (scorer.scoreInternal targetPointId newPointId) links,
    firstLtIdx_le _ _ _ _, firstLtIdx_take _ _ _ _, firstLtIdx_lt _ _ _ _, ?_⟩
  have hle := firstLtIdx_le scorer targetPointId
    (scorer.scoreInternal targetPointId newPointId) links
  simp only [connectNewPoint]
  split
  · rfl
  · split
    · rename_i hne
      rw [if_pos (by omega)]
    · rename_i heq
      rw [if_neg (by omega)]

theorem selectGo_length (scorer : FilteredScorer) (m : Nat) :
    ∀ (cs : List ScoredPointOffset) (acc : List Nat), acc.length ≤ m →
      (selectGo scorer m cs acc).length ≤ m := by
  intro cs
  induction cs with
  | nil => intro acc h; simpa [selectGo]
  | cons c cs ih =>
    intro acc h
    simp only [selectGo]
    split
    · exact h
    · rename_i hlt
      split
      · exact ih _ (by simp; omega)
      · exact ih _ h

theorem selectGo_append (scorer : FilteredScorer) (m : Nat) :
    ∀ (cs : List ScoredPointOffset) (acc : List Nat),
      ∃ t, selectGo scorer m cs acc = acc ++ t ∧
        t.Sublist (cs.map (fun c => c.idx)) := by
  intro cs
  induction cs with
  | nil => intro acc; exact ⟨[], by simp [selectGo]⟩
  | cons c cs ih =>
    intro acc
    simp only [selectGo]
    split
    · exact ⟨[], by simp⟩
    · split
      · obtain ⟨t, ht, hs⟩ := ih (acc ++ [c.idx])
        refine ⟨c.idx :: t, by simpa using ht, ?_⟩
        simpa using List.Sublist.cons₂ c.idx hs
      · obtain ⟨t, ht, hs⟩ := ih acc
        exact ⟨t, ht, hs.cons c.idx⟩

theorem selectGo_dom (scorer : FilteredScorer) (m : Nat) (all : List ScoredPointOffset) :
    ∀ (cs : List ScoredPointOffset) (acc : List Nat),
      (∀ c ∈ cs, c ∈ all) →
      (∀ j, j < acc.length → ∃ c ∈ all, c.idx = acc.getD j 0 ∧
        ∀ k, k < j → scorer.scoreInternal c.idx (acc.getD k 0) ≤ c.score) →
      ∀ j, j < (selectGo scorer m cs acc).length →
        ∃ c ∈ all, c.idx = (selectGo scorer m cs acc).getD j 0 ∧
          ∀ k, k < j →
            scorer.scoreInternal c.idx ((selectGo scorer m cs acc).getD k 0) ≤ c.score := by
  intro cs
  induction cs with
  | nil => intro acc _ hacc; simpa [selectGo] using hacc
  | cons c cs ih =>
    intro acc hmem hacc
    simp only [selectGo]
    split
    · exact hacc
    · split
      · rename_i hgood
        refine ih (acc ++ [c.idx]) (fun x hx => hmem x (List.mem_cons_of_mem _ hx)) ?_
        intro j hj
        simp only [List.length_append, List.length_singleton] at hj
        rcases Nat.lt_or_ge j acc.length with hlt | hge
        · obtain ⟨d, hd, hidx, hdom⟩ := hacc j hlt
          refine ⟨d, hd, ?_, ?_⟩
          · rwa [List.getD_append _ _ _ _ hlt]
          · intro k hk
            rw [List.getD_append _ _ _ _ (by omega)]
            exact hdom k hk
        · have hj' : j = acc.length := by omega
          subst hj'
          refine ⟨c, hmem c (List.mem_cons_self _ _), ?_, ?_⟩
          · rw [List.getD_append_right _ _ _ _ hge]
            simp
          · intro k hk
            rw [List.getD_append _ _ _ _ hk]
            have hkmem : acc.getD k 0 ∈ acc := by
              rw [List.getD_eq_getElem _ _ hk]
              exact List.getElem_mem hk
            have := List.all_eq_true.mp hgood (acc.getD k 0) hkmem
            simp only [Bool.not_eq_true'] at this
            have h2 : ¬ c.score < scorer.scoreInternal c.idx (acc.getD k 0) := by
              simpa using this
            omega
      · exact ih acc (fun x hx => hmem x (List.mem_cons_of_mem _ hx)) hacc

/-- Claim C4: `select_candidate_with_heuristic_from_sorted`, on candidates
sorted by descending score, returns at most `m` ids forming a subsequence of
the input ids taken greedily in input order, and every returned candidate `C`
satisfies `score_internal(C.id, X.id) ≤ C.score` against every candidate `X`
selected before it. -/
theorem select_from_sorted_spec (scorer : FilteredScorer) (m : Nat)
    (cands : List ScoredPointOffset)
    (_hsorted : cands.Pairwise (fun a c => c.score ≤ a.score)) :
    (selectCandidateWithHeuristicFromSorted cands m scorer).length ≤ m ∧
    (selectCandidateWithHeuristicFromSorted cands m scorer).Sublist
      (cands.map (fun c => c.idx)) ∧
    ∀ j, j < (selectCandidateWithHeuristicFromSorted cands m scorer).length →
      ∃ c ∈ cands, c.idx = (selectCandidateWithHeuristicFromSorted cands m scorer).getD j 0 ∧
        ∀ k, k < j →
          scorer.scoreInternal c.idx
              ((selectCandidateWithHeuristicFromSorted cands m scorer).getD k 0) ≤
            c.score := by
  refine ⟨selectGo_length scorer m cands [] (by simp), ?_, ?_⟩
  · obtain ⟨t, ht, hs⟩ := selectGo_append scorer m cands []
    simpa [selectCandidateWithHeuristicFromSorted, ht] using hs
  · exact selectGo_dom scorer m cands cands [] (fun c hc => hc) (by simp)

theorem insertDesc_perm (x : ScoredPointOffset) (l : List ScoredPointOffset) :
    (insertDesc x l).Perm (x :: l) := by
  induction l with
  | nil => simp [insertDesc]
  | cons y ys ih =>
    simp only [insertDesc]
    split
    · exact List.Perm.refl _
    · exact List.Perm.trans (List.Perm.cons y ih) (List.Perm.swap x y ys)

theorem sortDesc_perm (l : List ScoredPointOffset) : (sortDesc l).Perm l := by
  induction l with
  | nil => simp [sortDesc]
  | cons y ys ih =>
    simp only [sortDesc, List.foldr_cons]
    exact List.Perm.trans (insertDesc_perm y _) (List.Perm.cons y ih)

/-- Claim C5 as amended: when the selected neighbour's list is at its cap
(`links.length ≤ levelM`, with `levelM = getM(level)`, i.e. `m0` on layer 0
and `m` above), the re-selection candidate ids are exactly the new point plus
the whole current list — `take levelM` drops nothing, because a list at cap
has exactly `levelM` entries. -/
theorem relink_candidates_at_cap (scorer : FilteredScorer) (p q levelM : Nat)
    (links : List Nat) (h : links.length ≤ levelM) :
    ((relinkCandidates scorer p q links levelM).map (fun c => c.idx)).Perm (p :: links) := by
  have hperm := (sortDesc_perm
    (⟨p, scorer.scoreInternal p q⟩ ::
      (links.take levelM).map (fun l => ⟨l, scorer.scoreInternal l q⟩))).map
    (fun c : ScoredPointOffset => c.idx)
  simp only [relinkCandidates]
  refine hperm.trans ?_
  rw [List.take_of_length_le h]
  have hid : (List.map ((fun c : ScoredPointOffset => c.idx) ∘
      fun l => ({ idx := l, score := scorer.scoreInternal l q } : ScoredPointOffset)) links)
      = links := by
    simp [Function.comp_def]
  simp only [List.map_cons, List.map_map, hid]
  exact List.Perm.refl _

/-- Counterexample to claim C5 as stated.  With `m = 2`, `m0 = 4` and a
layer-0 neighbour list `[10, 11, 12, 13]` of the selected neighbour `5`
already at its cap `getM 0 = m0 = 4`, the claim predicts a candidate set of
the new point `7` plus only the first `M = m = 2` existing neighbours — three
ids, with the last neighbour `13` dropped.  The code builds the candidates
with `take(level_m)`, so all four existing neighbours (`13` included) enter
the competition. -/
theorem relink_take_m_counterexample :
    ((relinkCandidates cScorer 7 5 [10, 11, 12, 13]
        ((GraphLinearBuilder.new 20 2 4 16 10 true).getM 0)).map (fun c => c.idx))
      = [7, 10, 11, 12, 13] ∧
    13 ∈ ((relinkCandidates cScorer 7 5 [10, 11, 12, 13]
        ((GraphLinearBuilder.new 20 2 4 16 10 true).getM 0)).map (fun c => c.idx)) ∧
    13 ∉ 7 :: List.take (GraphLinearBuilder.new 20 2 4 16 10 true).m
        [10, 11, 12, 13] := by decide

theorem relink_candidates_at_cap_witness :
    ([10, 11, 12, 13] : List Nat).length ≤ 4 ∧
    ((relinkCandidates cScorer 7 5 [10, 11, 12, 13] 4).map (fun c => c.idx)).Perm
      (7 :: [10, 11, 12, 13]) :=
  ⟨by decide, relink_candidates_at_cap cScorer 7 5 4 [10, 11, 12, 13] (by decide)⟩

theorem length_updAt (l : List α) (i : Nat) (f : α → α) : (updAt l i f).length = l.length := by
  induction l generalizing i with
  | nil => rfl
  | cons x xs ih =>
    cases i with
    | zero => rfl
    | succ n => simp [updAt, ih]

theorem getD_updAt_ne (l : List α) (i j : Nat) (f : α → α) (d : α) (h : i ≠ j) :
    (updAt l i f).getD j d = l.getD j d := by
  induction l generalizing i j with
  | nil => rfl
  | cons x xs ih =>
    cases i with
    | zero =>
      cases j with
      | zero => exact absurd rfl h
      | succ k => simp [updAt, List.getD]
    | succ n =>
      cases j with
      | zero => simp [updAt, List.getD]
      | succ k =>
        simp only [updAt, List.getD_cons_succ]
        exact ih n k (by omega)

theorem getD_updAt_or (l : List α) (i j : Nat) (f : α → α) (d : α) :
    (updAt l i f).getD j d = l.getD j d ∨
      (updAt l i f).getD j d = f (l.getD j d) := by
  induction l generalizing i j with
  | nil => exact Or.inl rfl
  | cons x xs ih =>
    cases i with
    | zero =>
      cases j with
      | zero => exact Or.inr rfl
      | succ k => exact Or.inl (by simp [updAt, List.getD])
    | succ n =>
      cases j with
      | zero => exact Or.inl (by simp [updAt, List.getD])
      | succ k =>
        simp only [updAt, List.getD_cons_succ]
        exact ih n k

theorem getD_updAt_self (l : List α) (i : Nat) (f : α → α) (d : α) (h : i < l.length) :
    (updAt l i f).getD i d = f (l.getD i d) := by
  induction l generalizing i with
  | nil => simp at h
  | cons x xs ih =>
    cases i with
    | zero => rfl
    | succ n =>
      simp only [updAt, List.getD_cons_succ]
      exact ih n (by simpa using h)

theorem getD_append_cases (l1 l2 : List α) (n : Nat) (d : α) :
    (l1 ++ l2).getD n d = l1.getD n d ∨
      (l1 ++ l2).getD n d = l2.getD (n - l1.length) d := by
  rcases Nat.lt_or_ge n l1.length with h | h
  · exact Or.inl (List.getD_append l1 l2 d n h)
  · exact Or.inr (List.getD_append_right l1 l2 d n h)

theorem getD_replicate_cases (c n : Nat) (a d : α) :
    (List.replicate c a).getD n d = a ∨ (List.replicate c a).getD n d = d := by
  rcases Nat.lt_or_ge n c with h | h
  · left
    rw [List.getD_eq_getElem _ _ (by simpa using h)]
    exact List.getElem_replicate _ _
  · right
    exact List.getD_eq_default _ _ (by simpa using h)

theorem linksAt_setLinks_cases (b : GraphLinearBuilder) (p l : Nat) (v : List Nat)
    (q k : Nat) :
    linksAt (setLinks b p l v) q k = linksAt b q k ∨
      (q = p ∧ k = l ∧ linksAt (setLinks b p l v) q k = v) := by
  simp only [linksAt, setLinks]
  by_cases hq : p = q
  · subst hq
    rcases getD_updAt_or b.linksLayers p p
        (fun layers => updAt layers l (fun _ => v)) [] with h | h
    · exact Or.inl (by rw [h])
    · rw [h]
      by_cases hk : l = k
      · subst hk
        rcases getD_updAt_or (b.linksLayers.getD p []) l l (fun _ => v) [] with h2 | h2
        · exact Or.inl (by rw [h2])
        · exact Or.inr ⟨rfl, rfl, by rw [h2]⟩
      · exact Or.inl (by rw [getD_updAt_ne _ _ _ _ _ hk])
  · left
    rw [getD_updAt_ne _ _ _ _ _ hq]

theorem getM_setLinks (b : GraphLinearBuilder) (p l : Nat) (v : List Nat) (k : Nat) :
    (setLinks b p l v).getM k = b.getM k := rfl

theorem capInv_setLinks (b : GraphLinearBuilder) (p l : Nat) (v : List Nat)
    (hb : capInv b) (hv : v.length ≤ b.getM l) : capInv (setLinks b p l v) := by
  intro q k
  rw [getM_setLinks]
  rcases linksAt_setLinks_cases b p l v q k with h | ⟨hq, hk, h⟩
  · rw [h]; exact hb q k
  · rw [h, hk]; exact hv

theorem connectNewPoint_length (links : List Nat) (n t m : Nat) (scorer : FilteredScorer)
    (h : links.length ≤ m) : (connectNewPoint links n t m scorer).length ≤ m := by
  have hle := firstLtIdx_le scorer t (scorer.scoreInternal t n) links
  have hlen : ∀ (i : Nat) (a : Nat) (l : List Nat), i ≤ l.length →
      (insAt i a l).length = l.length + 1 := by
    intro i a l
    induction l generalizing i with
    | nil =>
      intro hi
      have : i = 0 := by simpa using hi
      subst this
      rfl
    | cons x xs ih =>
      intro hi
      cases i with
      | zero => rfl
      | succ j => simp [insAt, ih j (by simpa using hi)]
  simp only [connectNewPoint]
  split
  · rename_i hlt
    rw [hlen _ _ _ hle]
    omega
  · split
    · rename_i hge hne
      have hpos : 0 < links.length := by omega
      rw [hlen _ _ _ (by simp [List.length_dropLast]; omega)]
      simp [List.length_dropLast]
      omega
    · exact h

theorem foldl_preserved {α β : Type} {P : β → Prop} {f : β → α → β}
    (h : ∀ x a, P x → P (f x a)) : ∀ (l : List α) (x : β), P x → P (l.foldl f x) := by
  intro l
  induction l with
  | nil => intro x hx; exact hx
  | cons a as ih => intro x hx; exact ih _ (h x a hx)

theorem getM_congr (b b' : GraphLinearBuilder) (hm : b'.m = b.m) (hm0 : b'.m0 = b.m0)
    (k : Nat) : b'.getM k = b.getM k := by
  unfold GraphLinearBuilder.getM
  rw [hm, hm0]

theorem params_relinkOther (b : GraphLinearBuilder) (p o cl lm : Nat)
    (s : FilteredScorer) :
    (relinkOther b p o cl lm s).m = b.m ∧ (relinkOther b p o cl lm s).m0 = b.m0 := by
  by_cases h : (linksAt b o cl).length < lm <;> simp [relinkOther, h] <;> exact ⟨rfl, rfl⟩

theorem params_connectBoth (p cl lm : Nat) (s : FilteredScorer) (b : GraphLinearBuilder)
    (np : ScoredPointOffset) :
    (connectBoth p cl lm s b np).m = b.m ∧ (connectBoth p cl lm s b np).m0 = b.m0 :=
  ⟨rfl, rfl⟩

theorem params_linkOnLevel (p : Nat) (s : FilteredScorer)
    (st : GraphLinearBuilder × ScoredPointOffset) (cl : Nat) :
    (linkOnLevel p s st cl).1.m = st.1.m ∧ (linkOnLevel p s st cl).1.m0 = st.1.m0 := by
  unfold linkOnLevel
  simp only []
  split
  · refine foldl_preserved (P := fun x : GraphLinearBuilder => x.m = st.1.m ∧ x.m0 = st.1.m0) ?_ _ _ ⟨rfl, rfl⟩
    intro x a hx
    obtain ⟨h1, h2⟩ := params_relinkOther x p a cl (st.1.getM cl) s
    exact ⟨h1.trans hx.1, h2.trans hx.2⟩
  · refine foldl_preserved (P := fun x : GraphLinearBuilder => x.m = st.1.m ∧ x.m0 = st.1.m0) ?_ _ _ ⟨rfl, rfl⟩
    intro x a hx
    obtain ⟨h1, h2⟩ := params_connectBoth p cl (st.1.getM cl) s x a
    exact ⟨h1.trans hx.1, h2.trans hx.2⟩

theorem capInv_relinkOther (b : GraphLinearBuilder) (p o cl : Nat) (s : FilteredScorer)
    (hb : capInv b) : capInv (relinkOther b p o cl (b.getM cl) s) := by
  by_cases h : (linksAt b o cl).length < b.getM cl
  · simp only [relinkOther, h, if_true]
    refine capInv_setLinks _ _ _ _ hb ?_
    simp only [List.length_append, List.length_singleton]
    omega
  · simp only [relinkOther, h, if_false]
    exact capInv_setLinks _ _ _ _ hb (selectGo_length _ _ _ _ (by simp))

theorem capInv_connectBoth (p cl : Nat) (s : FilteredScorer) (b : GraphLinearBuilder)
    (np : ScoredPointOffset) (hb : capInv b) :
    capInv (connectBoth p cl (b.getM cl) s b np) := by
  unfold connectBoth
  have h1 : capInv (setLinks b p cl
      (connectNewPoint (linksAt b p cl) np.idx p (b.getM cl) s)) :=
    capInv_setLinks _ _ _ _ hb (connectNewPoint_length _ _ _ _ _ (hb p cl))
  exact capInv_setLinks _ _ _ _ h1
    (connectNewPoint_length _ _ _ _ _ (h1 np.idx cl))

theorem capInv_relinkFold (p cl : Nat) (s : FilteredScorer) (M : Nat → Nat) :
    ∀ (l : List Nat) (x : GraphLinearBuilder), capInv x → (∀ k, x.getM k = M k) →
      capInv (l.foldl (fun acc other => relinkOther acc p other cl (M cl) s) x) ∧
      ∀ k, (l.foldl (fun acc other => relinkOther acc p other cl (M cl) s) x).getM k
        = M k := by
  intro l
  induction l with
  | nil => intro x h1 h2; exact ⟨h1, h2⟩
  | cons a as ih =>
    intro x h1 h2
    simp only [List.foldl_cons]
    have hM : M cl = x.getM cl := (h2 cl).symm
    have hcap : capInv (relinkOther x p a cl (M cl) s) := by
      rw [hM]; exact capInv_relinkOther x p a cl s h1
    obtain ⟨hm, hm0⟩ := params_relinkOther x p a cl (M cl) s
    exact ih _ hcap (fun k => (getM_congr x _ hm hm0 k).trans (h2 k))

theorem capInv_connectFold (p cl : Nat) (s : FilteredScorer) (M : Nat → Nat) :
    ∀ (l : List ScoredPointOffset) (x : GraphLinearBuilder), capInv x →
      (∀ k, x.getM k = M k) →
      capInv (l.foldl (connectBoth p cl (M cl) s) x) ∧
      ∀ k, (l.foldl (connectBoth p cl (M cl) s) x).getM k = M k := by
  intro l
  induction l with
  | nil => intro x h1 h2; exact ⟨h1, h2⟩
  | cons a as ih =>
    intro x h1 h2
    simp only [List.foldl_cons]
    have hM : M cl = x.getM cl := (h2 cl).symm
    have hcap : capInv (connectBoth p cl (M cl) s x a) := by
      rw [hM]; exact capInv_connectBoth p cl s x a h1
    obtain ⟨hm, hm0⟩ := params_connectBoth p cl (M cl) s x a
    exact ih _ hcap (fun k => (getM_congr x _ hm hm0 k).trans (h2 k))

theorem capInv_linkOnLevel (p : Nat) (s : FilteredScorer)
    (st : GraphLinearBuilder × ScoredPointOffset) (cl : Nat) (hb : capInv st.1) :
    capInv (linkOnLevel p s st cl).1 := by
  by_cases h : st.1.useHeuristic <;> simp only [linkOnLevel, h, if_true, if_false]
  · have h1 : capInv (setLinks st.1 p cl
        (selectCandidateWithHeuristicFromSorted
          (searchOnLevel st.1 st.2 cl st.1.efConstruct s (linksAt st.1 p cl))
          (st.1.getM cl) s)) :=
      capInv_setLinks _ _ _ _ hb (selectGo_length _ _ _ _ (by simp))
    exact (capInv_relinkFold p cl s st.1.getM _ _ h1 (fun k => rfl)).1
  · exact (capInv_connectFold p cl s st.1.getM _ _ hb (fun k => rfl)).1

theorem capInv_linkLevelsFold (p : Nat) (s : FilteredScorer) (M : Nat → Nat) :
    ∀ (ls : List Nat) (st : GraphLinearBuilder × ScoredPointOffset),
      capInv st.1 → (∀ k, st.1.getM k = M k) →
      capInv ((ls.foldl (linkOnLevel p s) st).1) ∧
      ∀ k, ((ls.foldl (linkOnLevel p s) st).1).getM k = M k := by
  intro ls
  induction ls with
  | nil => intro st h1 h2; exact ⟨h1, h2⟩
  | cons a as ih =>
    intro st h1 h2
    simp only [List.foldl_cons]
    obtain ⟨hm, hm0⟩ := params_linkOnLevel p s st a
    exact ih _ (capInv_linkOnLevel p s st a h1)
      (fun k => (getM_congr st.1 _ hm hm0 k).trans (h2 k))

theorem linksAt_setLevels_cases (b : GraphLinearBuilder) (p lv q k : Nat) :
    linksAt (b.setLevels p lv) q k = linksAt b q k ∨
      linksAt (b.setLevels p lv) q k = [] := by
  simp only [linksAt, GraphLinearBuilder.setLevels]
  set grown :=
    (if b.linksLayers.length ≤ p then
      b.linksLayers ++ List.replicate (p + 1 - b.linksLayers.length) []
    else b.linksLayers) with hgrowndef
  have hgrown : ∀ i, grown.getD i [] = b.linksLayers.getD i [] ∨
      grown.getD i [] = ([] : List (List Nat)) := by
    intro i
    rw [hgrowndef]
    split
    · rcases getD_append_cases b.linksLayers
        (List.replicate (p + 1 - b.linksLayers.length) []) i [] with h | h
      · exact Or.inl h
      · rw [h]
        rcases getD_replicate_cases (p + 1 - b.linksLayers.length)
          (i - b.linksLayers.length) ([] : List (List Nat)) [] with h2 | h2
        · exact Or.inr h2
        · exact Or.inr h2
    · exact Or.inl rfl
  rcases getD_updAt_or grown p q
      (fun layers => layers ++ List.replicate (lv + 1 - layers.length) []) [] with h | h
  · rw [h]
    rcases hgrown q with h2 | h2
    · exact Or.inl (by rw [h2])
    · exact Or.inr (by rw [h2]; rfl)
  · rw [h]
    rcases getD_append_cases (grown.getD q [])
        (List.replicate (lv + 1 - (grown.getD q []).length) []) k [] with h2 | h2
    · rw [h2]
      rcases hgrown q with h3 | h3
      · exact Or.inl (by rw [h3])
      · exact Or.inr (by rw [h3]; rfl)
    · rw [h2]
      rcases getD_replicate_cases (lv + 1 - (grown.getD q []).length)
        (k - (grown.getD q []).length) ([] : List Nat) [] with h3 | h3
      · exact Or.inr h3
      · exact Or.inr h3

theorem capInv_setLevels (b : GraphLinearBuilder) (p lv : Nat) (hb : capInv b) :
    capInv (b.setLevels p lv) := by
  intro q k
  have hM : (b.setLevels p lv).getM k = b.getM k := rfl
  rw [hM]
  rcases linksAt_setLevels_cases b p lv q k with h | h
  · rw [h]; exact hb q k
  · rw [h]; simp

theorem linksAt_new (nv m m0 efc epn : Nat) (uh : Bool) (p l : Nat) :
    linksAt (GraphLinearBuilder.new nv m m0 efc epn uh) p l = [] := by
  simp only [linksAt, GraphLinearBuilder.new]
  rcases getD_replicate_cases nv p ([[]] : List (List Nat)) [] with h | h
  · rw [h]
    cases l with
    | zero => rfl
    | succ n => simp [List.getD]
  · rw [h]; rfl

theorem capInv_linkNewPointD (b : GraphLinearBuilder) (p : Nat) (s : FilteredScorer)
    (hb : capInv b) : capInv ((linkNewPoint b p s).getD b) := by
  rcases hpl : b.getPointLevel p with _ | level
  · simp [linkNewPoint, hpl]
    exact hb
  · rcases hprev : (b.entryPoints.newPoint p level s.checkVector).1 with _ | entry
    · simp only [linkNewPoint, hpl, hprev, Option.getD_some]
      exact hb
    · simp only [linkNewPoint, hpl, hprev, Option.getD_some]
      exact (capInv_linkLevelsFold p s b.getM _ _ hb (fun k => rfl)).1

theorem capInv_getM_applyOp (M : Nat → Nat) (b : GraphLinearBuilder) (op : BuildOp)
    (h1 : capInv b) (h2 : ∀ k, b.getM k = M k) :
    capInv (applyOp b op) ∧ ∀ k, (applyOp b op).getM k = M k := by
  cases op with
  | setLevels q lv =>
    exact ⟨capInv_setLevels b q lv h1, h2⟩
  | linkNewPoint q s =>
    refine ⟨capInv_linkNewPointD b q s h1, ?_⟩
    rcases hpl : b.getPointLevel q with _ | level
    · simpa [applyOp, linkNewPoint, hpl] using h2
    · rcases hprev : (b.entryPoints.newPoint q level s.checkVector).1 with _ | entry
      · simpa [applyOp, linkNewPoint, hpl, hprev] using h2
      · simp only [applyOp, linkNewPoint, hpl, hprev, Option.getD_some]
        exact (capInv_linkLevelsFold q s M _ _ h1 h2).2

/-- Claim C2: every builder state reachable by any sequence of `set_levels`
and `link_new_point` calls from a freshly constructed builder keeps every
point's layer-`l` neighbour list within the degree cap: `m0` entries on
layer 0 and `m` entries on every higher layer. -/
theorem degree_cap_invariant (nv m m0 efc epn : Nat) (uh : Bool) (ops : List BuildOp)
    (p l : Nat) :
    (linksAt (runOps (GraphLinearBuilder.new nv m m0 efc epn uh) ops) p l).length ≤
      (if l = 0 then m0 else m) := by
  have hinit1 : capInv (GraphLinearBuilder.new nv m m0 efc epn uh) := by
    intro q k
    rw [linksAt_new]
    simp
  have h := foldl_preserved
    (P := fun b : GraphLinearBuilder =>
      capInv b ∧ ∀ k, b.getM k = (if k = 0 then m0 else m))
    (fun b op hp => capInv_getM_applyOp _ b op hp.1 hp.2) ops
    (GraphLinearBuilder.new nv m m0 efc epn uh) ⟨hinit1, fun k => rfl⟩
  rw [← h.2 l]
  exact h.1 p l

theorem collectUnvisited_union (ls : List Nat) (visited : Finset Nat) :
    (collectUnvisited ls visited).2 = visited ∪ (collectUnvisited ls visited).1.toFinset := by
  induction ls generalizing visited with
  | nil => simp [collectUnvisited]
  | cons l ls ih =>
    by_cases h : l ∈ visited
    · simp only [collectUnvisited, h, if_true]
      exact ih visited
    · simp only [collectUnvisited, h, if_false, List.toFinset_cons]
      rw [ih (insert l visited)]
      ext a
      simp only [Finset.mem_union, Finset.mem_insert, List.mem_toFinset]
      tauto

theorem collectUnvisited_nodup (ls : List Nat) (visited : Finset Nat) :
    (collectUnvisited ls visited).1.Nodup ∧
      ∀ x ∈ (collectUnvisited ls visited).1, x ∉ visited := by
  induction ls generalizing visited with
  | nil => simp [collectUnvisited]
  | cons l ls ih =>
    by_cases h : l ∈ visited
    · simpa only [collectUnvisited, h, if_true] using ih visited
    · simp only [collectUnvisited, h, if_false]
      obtain ⟨h1, h2⟩ := ih (insert l visited)
      constructor
      · refine List.nodup_cons.mpr ⟨?_, h1⟩
        intro hmem
        exact (h2 l hmem) (Finset.mem_insert_self l visited)
      · intro x hx
        rcases List.mem_cons.mp hx with h3 | h3
        · subst h3; exact h
        · intro hxv
          exact (h2 x h3) (Finset.mem_insert_of_mem hxv)

theorem collectUnvisited_sub (ls : List Nat) (visited : Finset Nat) :
    ∀ x ∈ (collectUnvisited ls visited).1, x ∈ ls := by
  induction ls generalizing visited with
  | nil => simp [collectUnvisited]
  | cons l ls ih =>
    by_cases h : l ∈ visited
    · simp only [collectUnvisited, h, if_true]
      intro x hx
      exact List.mem_cons_of_mem _ (ih visited x hx)
    · simp only [collectUnvisited, h, if_false]
      intro x hx
      rcases List.mem_cons.mp hx with h3 | h3
      · subst h3; exact List.mem_cons_self _ _
      · exact List.mem_cons_of_mem _ (ih (insert l visited) x h3)

theorem getD_mem_or (l : List α) (i : Nat) (d : α) : l.getD i d = d ∨ l.getD i d ∈ l := by
  rcases Nat.lt_or_ge i l.length with h | h
  · right
    rw [List.getD_eq_getElem _ _ h]
    exact List.getElem_mem h
  · left
    exact List.getD_eq_default _ _ h

theorem mem_storeIds_of_mem_linksAt (b : GraphLinearBuilder) (p l x : Nat)
    (h : x ∈ linksAt b p l) : x ∈ storeIds b.linksLayers := by
  simp only [linksAt] at h
  rcases getD_mem_or (b.linksLayers.getD p []) l [] with h1 | h1
  · rw [h1] at h; simp at h
  · rcases getD_mem_or b.linksLayers p [] with h2 | h2
    · rw [h2] at h1; simp at h1
    · simp only [storeIds, List.mem_toFinset, List.mem_append]
      right
      exact List.mem_flatten.mpr ⟨_, List.mem_flatten.mpr ⟨_, h2, h1⟩, h⟩

theorem length_insertDesc (x : ScoredPointOffset) (l : List ScoredPointOffset) :
    (insertDesc x l).length = l.length + 1 := by
  induction l with
  | nil => rfl
  | cons y ys ih =>
    simp only [insertDesc]
    split
    · rfl
    · simp [ih]

theorem candidates_foldl_process (ef : Nat) :
    ∀ (l : List ScoredPointOffset) (ctx : SearchCtx),
      ((l.foldl (SearchCtx.process ef) ctx).candidates).length =
        ctx.candidates.length + l.length := by
  intro l
  induction l with
  | nil => intro ctx; simp
  | cons a as ih =>
    intro ctx
    simp only [List.foldl_cons, ih, SearchCtx.process, length_insertDesc, List.length_cons]
    omega

theorem scorePoints_length (s : FilteredScorer) (ids : List Nat) (limit : Nat) :
    (s.scorePoints ids limit).length ≤ ids.length := by
  simp only [FilteredScorer.scorePoints, List.length_map]
  exact List.length_filter_le _ _

theorem searchLoopF_complete (b : GraphLinearBuilder) (scorer : FilteredScorer)
    (level ef : Nat) :
    ∀ (fuel : Nat) (ctx : SearchCtx) (visited : Finset Nat),
      ctx.candidates.length + ((storeIds b.linksLayers) \ visited).card ≤ fuel →
      (searchLoopF b scorer level ef fuel ctx visited).2.2.2 = true ∧
      (searchLoopF b scorer level ef fuel ctx visited).2.2.1 ≤
        ctx.candidates.length + ((storeIds b.linksLayers) \ visited).card := by
  intro fuel
  induction fuel with
  | zero =>
    intro ctx visited h
    rcases hc : ctx.candidates with _ | ⟨c, rest⟩
    · rw [searchLoopF.eq_def]
      simp only [hc]
      simp
    · rw [hc, List.length_cons] at h
      omega
  | succ f ih =>
    intro ctx visited h
    rcases hc : ctx.candidates with _ | ⟨c, rest⟩
    · rw [searchLoopF.eq_def]
      simp only [hc]
      simp
    · cases hstop : stopCheck ctx.nearest c with
      | true =>
        rw [searchLoopF.eq_def]
        simp only [hc, hstop, if_true]
        refine ⟨trivial, ?_⟩
        simp only [List.length_cons]
        omega
      | false =>
        rw [searchLoopF.eq_def]
        simp only [hc, hstop, Bool.false_eq_true, if_false]
        set links := linksAt b c.idx level with hlinks
        set r := collectUnvisited links visited with hr
        set scored := scorer.scorePoints r.1 (b.getM level) with hscored
        set ctx' := scored.foldl (SearchCtx.process ef)
          { ctx with candidates := rest } with hctx
        have hnodup := (collectUnvisited_nodup links visited).1
        have hdisj := (collectUnvisited_nodup links visited).2
        have hsubS : r.1.toFinset ⊆ (storeIds b.linksLayers) \ visited := by
          intro x hx
          rw [List.mem_toFinset] at hx
          refine Finset.mem_sdiff.mpr ⟨?_, hdisj x hx⟩
          exact mem_storeIds_of_mem_linksAt b c.idx level x
            (collectUnvisited_sub links visited x hx)
        have hcard : ((storeIds b.linksLayers) \ r.2).card =
            ((storeIds b.linksLayers) \ visited).card - r.1.length := by
          rw [collectUnvisited_union links visited]
          have hset : (storeIds b.linksLayers) \ (visited ∪ r.1.toFinset) =
              ((storeIds b.linksLayers) \ visited) \ r.1.toFinset := by
            ext a
            simp only [Finset.mem_sdiff, Finset.mem_union]
            tauto
          rw [hset, Finset.card_sdiff hsubS, List.toFinset_card_of_nodup hnodup]
        have hfle : r.1.length ≤ ((storeIds b.linksLayers) \ visited).card := by
          have := Finset.card_le_card hsubS
          rwa [List.toFinset_card_of_nodup hnodup] at this
        have hslen : scored.length ≤ r.1.length := scorePoints_length _ _ _
        have hclen : ctx'.candidates.length = rest.length + scored.length := by
          rw [hctx]
          exact candidates_foldl_process ef scored { ctx with candidates := rest }
        have hmeas : ctx'.candidates.length +
            ((storeIds b.linksLayers) \ r.2).card ≤ f := by
          rw [hc, List.length_cons] at h
          omega
        obtain ⟨hfin, hcount⟩ := ih ctx' r.2 hmeas
        refine ⟨by simpa using hfin, ?_⟩
        simp only [List.length_cons]
        omega

theorem storeIds_subset_range (b : GraphLinearBuilder)
    (hlinks : ∀ p l x, x ∈ linksAt b p l → x < b.linksLayers.length) :
    storeIds b.linksLayers ⊆ Finset.range b.linksLayers.length := by
  intro x hx
  simp only [storeIds, List.mem_toFinset, List.mem_append] at hx
  rcases hx with hx | hx
  · exact Finset.mem_range.mpr (List.mem_range.mp hx)
  · rcases List.mem_flatten.mp hx with ⟨mid, hmid, hxmid⟩
    rcases List.mem_flatten.mp hmid with ⟨layers, hlayers, hmidl⟩
    rcases List.getElem_of_mem hlayers with ⟨p, hp, hpeq⟩
    rcases List.getElem_of_mem hmidl with ⟨l, hl, hleq⟩
    refine Finset.mem_range.mpr (hlinks p l x ?_)
    simp only [linksAt]
    rw [List.getD_eq_getElem _ _ hp, hpeq, List.getD_eq_getElem _ _ hl, hleq]
    exact hxmid

/-- Claim C7: the main loop of `search_on_level` ends on its own (never by
fuel), because every id entering the structures is first marked visited; on a
store whose entry point and link ids are all in range, it performs at most as
many iterations as the store has points. -/
theorem search_on_level_terminates (b : GraphLinearBuilder) (scorer : FilteredScorer)
    (entry : ScoredPointOffset) (level ef : Nat)
    (hlinks : ∀ p l x, x ∈ linksAt b p l → x < b.linksLayers.length)
    (hentry : entry.idx < b.linksLayers.length) :
    (searchOnLevelRun b entry level ef scorer).2.2.2 = true ∧
    (searchOnLevelRun b entry level ef scorer).2.2.1 ≤ b.linksLayers.length := by
  have hmeas : (searchInit entry ef).candidates.length +
      ((storeIds b.linksLayers) \ {entry.idx}).card ≤ searchFuel b entry := by
    simp [searchInit, searchFuel]
  obtain ⟨h1, h2⟩ := searchLoopF_complete b scorer level ef (searchFuel b entry)
    (searchInit entry ef) {entry.idx} hmeas
  have hin : entry.idx ∈ storeIds b.linksLayers := by
    simp only [storeIds, List.mem_toFinset, List.mem_append]
    exact Or.inl (List.mem_range.mpr hentry)
  have hcard1 : ((storeIds b.linksLayers) \ {entry.idx}).card =
      (storeIds b.linksLayers).card - 1 := by
    rw [Finset.card_sdiff (Finset.singleton_subset_iff.mpr hin)]
    simp
  have hSle : (storeIds b.linksLayers).card ≤ b.linksLayers.length := by
    have := Finset.card_le_card (storeIds_subset_range b hlinks)
    simpa using this
  have hpos : 1 ≤ (storeIds b.linksLayers).card :=
    Finset.card_pos.mpr ⟨entry.idx, hin⟩
  refine ⟨h1, ?_⟩
  have h2' : (searchOnLevelRun b entry level ef scorer).2.2.1 ≤
      1 + ((storeIds b.linksLayers) \ {entry.idx}).card := by
    simpa [searchInit] using h2
  omega

theorem getLast?_mem_self (l : List ScoredPointOffset) (w : ScoredPointOffset)
    (h : l.getLast? = some w) : w ∈ l := by
  obtain ⟨hne, heq⟩ := List.mem_getLast?_eq_getLast (Option.mem_def.mpr h)
  rw [heq]
  exact List.getLast_mem hne

theorem mem_insertDesc (x z : ScoredPointOffset) (l : List ScoredPointOffset) :
    z ∈ insertDesc x l ↔ z = x ∨ z ∈ l := by
  induction l with
  | nil => simp [insertDesc]
  | cons y ys ih =>
    by_cases h : y.score < x.score
    · simp only [insertDesc, h, if_true, List.mem_cons]
    · simp only [insertDesc, h, if_false, List.mem_cons, ih]
      tauto

theorem insertDesc_pairwise (x : ScoredPointOffset) (l : List ScoredPointOffset)
    (h : l.Pairwise scoreGe) : (insertDesc x l).Pairwise scoreGe := by
  induction l with
  | nil => simp [insertDesc, scoreGe]
  | cons y ys ih =>
    rcases List.pairwise_cons.mp h with ⟨hy, hys⟩
    simp only [insertDesc]
    split
    · rename_i hlt
      refine List.pairwise_cons.mpr ⟨?_, h⟩
      intro z hz
      rcases List.mem_cons.mp hz with h1 | h1
      · subst h1
        exact le_of_lt hlt
      · exact le_trans (hy z h1) (le_of_lt hlt)
    · rename_i hge
      refine List.pairwise_cons.mpr ⟨?_, ih hys⟩
      intro z hz
      rcases (mem_insertDesc x z ys).mp hz with h1 | h1
      · subst h1
        simpa [scoreGe] using le_of_not_lt hge
      · exact hy z h1

theorem insertDesc_append_or (x : ScoredPointOffset) (l : List ScoredPointOffset) :
    insertDesc x l = l ++ [x] ∨ (insertDesc x l).getLast? = l.getLast? := by
  induction l with
  | nil => exact Or.inl rfl
  | cons y ys ih =>
    simp only [insertDesc]
    split
    · right
      rw [List.getLast?_cons_cons]
    · cases ys with
      | nil =>
        left
        simp [insertDesc]
      | cons z zs =>
        rcases ih with h | h
        · left
          rw [h]
          rfl
        · right
          have hne : insertDesc x (z :: zs) ≠ [] := by
            intro hcontra
            have := length_insertDesc x (z :: zs)
            rw [hcontra] at this
            simp at this
          calc (y :: insertDesc x (z :: zs)).getLast?
              = (insertDesc x (z :: zs)).getLast? := by
                rcases List.exists_cons_of_ne_nil hne with ⟨a, as, ha⟩
                rw [ha, List.getLast?_cons_cons]
            _ = (z :: zs).getLast? := h
            _ = (y :: z :: zs).getLast? := (List.getLast?_cons_cons).symm

theorem length_pushNearest (ef : Nat) (x : ScoredPointOffset)
    (q : List ScoredPointOffset) :
    (pushNearest ef x q).length = min ef (q.length + 1) := by
  simp [pushNearest, List.length_take, length_insertDesc]

theorem pushNearest_pairwise (ef : Nat) (x : ScoredPointOffset)
    (q : List ScoredPointOffset) (h : q.Pairwise scoreGe) :
    (pushNearest ef x q).Pairwise scoreGe :=
  (insertDesc_pairwise x q h).sublist (List.take_sublist ef _)

theorem take_mem_or_drop (x : ScoredPointOffset) (S : List ScoredPointOffset) (ef : Nat)
    (hx : x ∈ S) : x ∈ S.take ef ∨ x ∈ S.drop ef := by
  rw [← List.take_append_drop ef S] at hx
  exact List.mem_append.mp hx

theorem take_last_ge_drop (S : List ScoredPointOffset) (ef : Nat)
    (hS : S.Pairwise scoreGe) (w x : ScoredPointOffset)
    (hw : (S.take ef).getLast? = some w) (hx : x ∈ S.drop ef) : x.score ≤ w.score := by
  have hsplit : S = S.take ef ++ S.drop ef := (List.take_append_drop ef S).symm
  rw [hsplit] at hS
  exact (List.pairwise_append.mp hS).2.2 w (getLast?_mem_self _ _ hw) x hx

theorem inQ_pushNearest_self (ef : Nat) (x : ScoredPointOffset)
    (q : List ScoredPointOffset) (hq : q.Pairwise scoreGe) (hlen : q.length ≤ ef) :
    inQ ef x (pushNearest ef x q) := by
  have hxS : x ∈ insertDesc x q := (mem_insertDesc x x q).mpr (Or.inl rfl)
  rcases take_mem_or_drop x (insertDesc x q) ef hxS with h | h
  · exact Or.inl h
  · right
    have hdrop_ne : (insertDesc x q).drop ef ≠ [] := List.ne_nil_of_mem h
    have hlen_gt : ef < (insertDesc x q).length := by
      by_contra hcontra
      push_neg at hcontra
      rw [← List.length_pos, List.length_drop] at hdrop_ne
      omega
    refine ⟨by rw [length_pushNearest]; rw [length_insertDesc] at hlen_gt; omega, ?_⟩
    intro w hw
    exact take_last_ge_drop _ ef (insertDesc_pairwise x q hq) w x hw h

theorem inQ_pushNearest_preserved (ef : Nat) (x y : ScoredPointOffset)
    (q : List ScoredPointOffset) (hq : q.Pairwise scoreGe) (hlen : q.length ≤ ef)
    (hin : inQ ef x q) : inQ ef x (pushNearest ef y q) := by
  rcases hin with hin | ⟨hfull, hbound⟩
  · have hxS : x ∈ insertDesc y q := (mem_insertDesc y x q).mpr (Or.inr hin)
    rcases take_mem_or_drop x (insertDesc y q) ef hxS with h | h
    · exact Or.inl h
    · right
      have hdrop_ne : (insertDesc y q).drop ef ≠ [] := List.ne_nil_of_mem h
      have hlen_gt : ef < (insertDesc y q).length := by
        by_contra hcontra
        push_neg at hcontra
        rw [← List.length_pos, List.length_drop] at hdrop_ne
        omega
      refine ⟨by rw [length_pushNearest]; rw [length_insertDesc] at hlen_gt; omega, ?_⟩
      intro w hw
      exact take_last_ge_drop _ ef (insertDesc_pairwise y q hq) w x hw h
  · cases ef with
    | zero =>
      right
      refine ⟨by rw [length_pushNearest]; omega, ?_⟩
      intro w hw
      simp [pushNearest] at hw
    | succ e =>
      right
      have hqne : q ≠ [] := by
        intro hcontra
        rw [hcontra] at hfull
        simp at hfull
      have hw0 : q.getLast? = some (q.getLast hqne) :=
        List.getLast?_eq_getLast_of_ne_nil hqne
      have hxw0 : x.score ≤ (q.getLast hqne).score := hbound _ hw0
      refine ⟨by rw [length_pushNearest]; omega, ?_⟩
      intro w' hw'
      rcases insertDesc_append_or y q with hcase | hcase
      · have htake : pushNearest (e + 1) y q = q := by
          simp only [pushNearest, hcase]
          rw [← hfull]
          exact List.take_left q [y]
        rw [htake] at hw'
        have : w' = q.getLast hqne := by
          rw [hw0] at hw'
          exact (Option.some_injective _ hw').symm
        rw [this]
        exact hxw0
      · have hSlen : (insertDesc y q).length = e + 2 := by
          rw [length_insertDesc, hfull]
        have hdrop_ne : (insertDesc y q).drop (e + 1) ≠ [] := by
          rw [← List.length_pos, List.length_drop, hSlen]
          omega
        have hlastS : (insertDesc y q).getLast? = some (q.getLast hqne) := by
          rw [hcase, hw0]
        have hlast_drop : ((insertDesc y q).drop (e + 1)).getLast? =
            some (q.getLast hqne) := by
          rw [← List.getLast?_append_of_ne_nil _ hdrop_ne, List.take_append_drop]
          exact hlastS
        have hmem_drop : q.getLast hqne ∈ (insertDesc y q).drop (e + 1) :=
          getLast?_mem_self _ _ hlast_drop
        have hge := take_last_ge_drop (insertDesc y q) (e + 1)
          (insertDesc_pairwise y q hq) w' (q.getLast hqne) hw' hmem_drop
        omega

theorem fold_pushNearest_inv (ef : Nat) :
    ∀ (l : List ScoredPointOffset) (q : List ScoredPointOffset),
      q.Pairwise scoreGe → q.length ≤ ef →
      (l.foldl (fun q x => pushNearest ef x q) q).Pairwise scoreGe ∧
      (l.foldl (fun q x => pushNearest ef x q) q).length ≤ ef := by
  intro l
  induction l with
  | nil => intro q h1 h2; exact ⟨h1, h2⟩
  | cons a as ih =>
    intro q h1 h2
    simp only [List.foldl_cons]
    exact ih _ (pushNearest_pairwise ef a q h1) (by rw [length_pushNearest]; omega)

theorem fold_pushNearest_inq (ef : Nat) (x : ScoredPointOffset) :
    ∀ (l : List ScoredPointOffset) (q : List ScoredPointOffset),
      q.Pairwise scoreGe → q.length ≤ ef → inQ ef x q →
      inQ ef x (l.foldl (fun q y => pushNearest ef y q) q) := by
  intro l
  induction l with
  | nil => intro q _ _ h; exact h
  | cons a as ih =>
    intro q h1 h2 h3
    simp only [List.foldl_cons]
    exact ih _ (pushNearest_pairwise ef a q h1) (by rw [length_pushNearest]; omega)
      (inQ_pushNearest_preserved ef x a q h1 h2 h3)

theorem fold_pushNearest_mem (ef : Nat) :
    ∀ (l : List ScoredPointOffset) (x : ScoredPointOffset), x ∈ l →
      ∀ (q : List ScoredPointOffset), q.Pairwise scoreGe → q.length ≤ ef →
      inQ ef x (l.foldl (fun q y => pushNearest ef y q) q) := by
  intro l
  induction l with
  | nil => intro x hx; simp at hx
  | cons a as ih =>
    intro x hx q h1 h2
    simp only [List.foldl_cons]
    rcases List.mem_cons.mp hx with hx | hx
    · subst hx
      exact fold_pushNearest_inq ef x as _ (pushNearest_pairwise ef x q h1)
        (by rw [length_pushNearest]; omega) (inQ_pushNearest_self ef x q h1 h2)
    · exact ih x hx _ (pushNearest_pairwise ef a q h1) (by rw [length_pushNearest]; omega)

theorem nearest_foldl_process (ef : Nat) :
    ∀ (l : List ScoredPointOffset) (ctx : SearchCtx),
      (l.foldl (SearchCtx.process ef) ctx).nearest =
        l.foldl (fun q x => pushNearest ef x q) ctx.nearest := by
  intro l
  induction l with
  | nil => intro ctx; rfl
  | cons a as ih =>
    intro ctx
    simp only [List.foldl_cons, ih]
    rfl

theorem nearest_seed_fold (ef : Nat) (vis : Finset Nat) (f : Nat → Int) :
    ∀ (ls : List Nat) (ctx : SearchCtx),
      ((ls.foldl
        (fun ctx el => if el ∈ vis then ctx else SearchCtx.process ef ctx ⟨el, f el⟩)
        ctx).nearest) =
      ls.foldl (fun q el => if el ∈ vis then q else pushNearest ef ⟨el, f el⟩ q)
        ctx.nearest := by
  intro ls
  induction ls with
  | nil => intro ctx; rfl
  | cons a as ih =>
    intro ctx
    by_cases h : a ∈ vis <;> simp only [List.foldl_cons, h, if_true, if_false, ih]
    rfl

theorem fold_filter_if (vis : Finset Nat) (g : List ScoredPointOffset → Nat →
    List ScoredPointOffset) :
    ∀ (ls : List Nat) (q0 : List ScoredPointOffset),
      ls.foldl (fun q el => if el ∈ vis then q else g q el) q0 =
        (ls.filter (fun el => decide (el ∉ vis))).foldl g q0 := by
  intro ls
  induction ls with
  | nil => intro q0; rfl
  | cons a as ih =>
    intro q0
    by_cases h : a ∈ vis
    · simp only [List.foldl_cons, h, if_true, List.filter_cons, decide_eq_true_eq]
      rw [if_neg (by simp [h])]
      exact ih q0
    · simp only [List.foldl_cons, h, if_false, List.filter_cons, decide_eq_true_eq]
      rw [if_pos (by simp [h])]
      exact ih (g q0 a)

theorem searchLoopF_nearest_inv (b : GraphLinearBuilder) (scorer : FilteredScorer)
    (level ef : Nat) :
    ∀ (fuel : Nat) (ctx : SearchCtx) (visited : Finset Nat),
      ctx.nearest.Pairwise scoreGe → ctx.nearest.length ≤ ef →
      (searchLoopF b scorer level ef fuel ctx visited).1.nearest.Pairwise scoreGe ∧
      (searchLoopF b scorer level ef fuel ctx visited).1.nearest.length ≤ ef := by
  intro fuel
  induction fuel with
  | zero =>
    intro ctx visited h1 h2
    rcases hc : ctx.candidates with _ | ⟨c, rest⟩ <;>
      · rw [searchLoopF.eq_def]
        simp only [hc]
        exact ⟨h1, h2⟩
  | succ f ih =>
    intro ctx visited h1 h2
    rcases hc : ctx.candidates with _ | ⟨c, rest⟩
    · rw [searchLoopF.eq_def]
      simp only [hc]
      exact ⟨h1, h2⟩
    · cases hstop : stopCheck ctx.nearest c with
      | true =>
        rw [searchLoopF.eq_def]
        simp only [hc, hstop, if_true]
        exact ⟨h1, h2⟩
      | false =>
        rw [searchLoopF.eq_def]
        simp only [hc, hstop, Bool.false_eq_true, if_false]
        refine ih _ _ ?_ ?_
        · rw [nearest_foldl_process]
          exact (fold_pushNearest_inv ef _ _ h1 h2).1
        · rw [nearest_foldl_process]
          exact (fold_pushNearest_inv ef _ _ h1 h2).2

/-- Claim C8: after the main loop of `search_on_level`, every existing link
whose visited bit is still clear is scored against the query by `score_point`
and offered to `Nearest` (visited links are not re-offered), and such a link
is in the returned `Nearest` whenever its score beats the score of the
queue's worst element. -/
theorem search_on_level_seeds_existing (b : GraphLinearBuilder)
    (scorer : FilteredScorer) (entry : ScoredPointOffset) (level ef : Nat)
    (existingLinks : List Nat) :
    searchOnLevel b entry level ef scorer existingLinks =
      (existingLinks.filter
        (fun el => decide (el ∉ (searchOnLevelRun b entry level ef scorer).2.1))).foldl
        (fun q el => pushNearest ef ⟨el, scorer.scorePoint el⟩ q)
        (searchOnLevelRun b entry level ef scorer).1.nearest
    ∧ ∀ l ∈ existingLinks, l ∉ (searchOnLevelRun b entry level ef scorer).2.1 →
      ∀ w, (searchOnLevel b entry level ef scorer existingLinks).getLast? = some w →
        w.score < scorer.scorePoint l →
        (⟨l, scorer.scorePoint l⟩ : ScoredPointOffset) ∈
          searchOnLevel b entry level ef scorer existingLinks := by
  have halpha : searchOnLevel b entry level ef scorer existingLinks =
      (existingLinks.filter
        (fun el => decide (el ∉ (searchOnLevelRun b entry level ef scorer).2.1))).foldl
        (fun q el => pushNearest ef ⟨el, scorer.scorePoint el⟩ q)
        (searchOnLevelRun b entry level ef scorer).1.nearest := by
    rw [searchOnLevel, nearest_seed_fold ef _ scorer.scorePoint existingLinks,
      fold_filter_if]
  refine ⟨halpha, ?_⟩
  have hinit1 : (searchInit entry ef).nearest.Pairwise scoreGe :=
    pushNearest_pairwise ef entry [] (List.Pairwise.nil)
  have hinit2 : (searchInit entry ef).nearest.length ≤ ef := by
    simp only [searchInit]
    rw [length_pushNearest]
    omega
  obtain ⟨hq1, hq2⟩ := searchLoopF_nearest_inv b scorer level ef
    (searchFuel b entry) (searchInit entry ef) {entry.idx} hinit1 hinit2
  intro l hl hnv w hw hscore
  have hfilters : l ∈ existingLinks.filter
      (fun el => decide (el ∉ (searchOnLevelRun b entry level ef scorer).2.1)) :=
    List.mem_filter.mpr ⟨hl, by simpa using hnv⟩
  have hmapped : (⟨l, scorer.scorePoint l⟩ : ScoredPointOffset) ∈
      (existingLinks.filter
        (fun el => decide (el ∉ (searchOnLevelRun b entry level ef scorer).2.1))).map
        (fun el => (⟨el, scorer.scorePoint el⟩ : ScoredPointOffset)) :=
    List.mem_map.mpr ⟨l, hfilters, rfl⟩
  have hfold : (existingLinks.filter
      (fun el => decide (el ∉ (searchOnLevelRun b entry level ef scorer).2.1))).foldl
      (fun q el => pushNearest ef ⟨el, scorer.scorePoint el⟩ q)
      (searchOnLevelRun b entry level ef scorer).1.nearest =
      ((existingLinks.filter
        (fun el => decide (el ∉ (searchOnLevelRun b entry level ef scorer).2.1))).map
        (fun el => (⟨el, scorer.scorePoint el⟩ : ScoredPointOffset))).foldl
        (fun q y => pushNearest ef y q)
        (searchOnLevelRun b entry level ef scorer).1.nearest := by
    rw [List.foldl_map]
  have hinq := fold_pushNearest_mem ef _ _ hmapped
    (searchOnLevelRun b entry level ef scorer).1.nearest hq1 hq2
  rw [← hfold, ← halpha] at hinq
  rcases hinq with hmem | ⟨_, hbound⟩
  · exact hmem
  · have := hbound w hw
    simp only at this
    omega

theorem select_from_sorted_spec_witness :
    ([⟨1, 10⟩, ⟨2, 5⟩] : List ScoredPointOffset).Pairwise
      (fun a c => c.score ≤ a.score) ∧
    ((selectCandidateWithHeuristicFromSorted [⟨1, 10⟩, ⟨2, 5⟩] 2 cScorer).length ≤ 2 ∧
    (selectCandidateWithHeuristicFromSorted [⟨1, 10⟩, ⟨2, 5⟩] 2 cScorer).Sublist
      (([⟨1, 10⟩, ⟨2, 5⟩] : List ScoredPointOffset).map (fun c => c.idx)) ∧
    ∀ j, j < (selectCandidateWithHeuristicFromSorted [⟨1, 10⟩, ⟨2, 5⟩] 2 cScorer).length →
      ∃ c ∈ ([⟨1, 10⟩, ⟨2, 5⟩] : List ScoredPointOffset),
        c.idx = (selectCandidateWithHeuristicFromSorted [⟨1, 10⟩, ⟨2, 5⟩] 2 cScorer).getD j 0 ∧
        ∀ k, k < j →
          cScorer.scoreInternal c.idx
              ((selectCandidateWithHeuristicFromSorted [⟨1, 10⟩, ⟨2, 5⟩] 2 cScorer).getD k 0) ≤
            c.score) := by
  refine ⟨by decide, ?_⟩
  exact select_from_sorted_spec cScorer 2 [⟨1, 10⟩, ⟨2, 5⟩] (by decide)

/-- Claim C9: `search` returns the empty vector when no admissible entry
point exists (the builder itself is not touched: `search` borrows it
immutably and the embedding is a pure function of it), and otherwise returns
at most `top` points, all drawn from the layer-0 beam search of width
`max top ef` seeded by greedy descent from the entry point. -/
theorem search_spec (b : GraphLinearBuilder) (top ef : Nat) (scorer : FilteredScorer) :
    (b.entryPoints.getEntryPoint scorer.checkVector = none →
      b.search top ef scorer = []) ∧
    (b.search top ef scorer).length ≤ top ∧
    ∀ x ∈ b.search top ef scorer, ∃ ep,
      b.entryPoints.getEntryPoint scorer.checkVector = some ep ∧
      x ∈ searchOnLevel b (searchEntry b ep.pointId ep.level 0 scorer) 0
        (max top ef) scorer [] := by
  rcases h : b.entryPoints.getEntryPoint scorer.checkVector with _ | ep
  · refine ⟨fun _ => ?_, ?_, ?_⟩
    · simp [GraphLinearBuilder.search, h]
    · simp [GraphLinearBuilder.search, h]
    · intro x hx
      simp [GraphLinearBuilder.search, h] at hx
  · refine ⟨fun hcontra => ?_, ?_, ?_⟩
    · exact (Option.some_ne_none ep hcontra).elim
    · simp only [GraphLinearBuilder.search, h]
      exact List.length_take_le _ _
    · intro x hx
      refine ⟨ep, rfl, ?_⟩
      simp only [GraphLinearBuilder.search, h] at hx
      exact List.mem_of_mem_take hx

/-- Claim C10: calling `set_levels(p, l)` with `p` beyond the current store
creates every intermediate point with a completely empty layers container
(no layer 0), and `get_point_level` on such a gap point is the `len() - 1`
underflow on `usize`, modelled as `none`; `link_new_point` on it fails the
same way. -/
theorem set_levels_gap_points (b : GraphLinearBuilder) (p lv q : Nat)
    (s : FilteredScorer) (hp : b.linksLayers.length ≤ p)
    (hq1 : b.linksLayers.length ≤ q) (hq2 : q < p) :
    (b.setLevels p lv).linksLayers.getD q [] = [] ∧
    (b.setLevels p lv).getPointLevel q = none ∧
    linkNewPoint (b.setLevels p lv) q s = none := by
  have hgap : (b.setLevels p lv).linksLayers.getD q [] = [] := by
    simp only [GraphLinearBuilder.setLevels, if_pos hp]
    rw [getD_updAt_ne _ _ _ _ _ (by omega)]
    rw [List.getD_append_right _ _ _ _ hq1]
    rcases getD_replicate_cases (p + 1 - b.linksLayers.length)
      (q - b.linksLayers.length) ([] : List (List Nat)) [] with h | h <;> exact h
  have hlevel : (b.setLevels p lv).getPointLevel q = none := by
    unfold GraphLinearBuilder.getPointLevel
    rw [hgap]
    rfl
  exact ⟨hgap, hlevel, by simp [linkNewPoint, hlevel]⟩

theorem set_levels_gap_points_witness :
    ((GraphLinearBuilder.new 2 2 4 16 10 true).linksLayers.length ≤ 5 ∧
      (GraphLinearBuilder.new 2 2 4 16 10 true).linksLayers.length ≤ 3 ∧ 3 < 5) ∧
    (((GraphLinearBuilder.new 2 2 4 16 10 true).setLevels 5 2).linksLayers.getD 3 [] = [] ∧
      ((GraphLinearBuilder.new 2 2 4 16 10 true).setLevels 5 2).getPointLevel 3 = none ∧
      linkNewPoint ((GraphLinearBuilder.new 2 2 4 16 10 true).setLevels 5 2) 3 cScorer
        = none) :=
  ⟨by decide,
    set_levels_gap_points (GraphLinearBuilder.new 2 2 4 16 10 true) 5 2 3 cScorer
      (by decide) (by decide) (by decide)⟩

/-- Claim C1: construction is deterministic.  Every operation of the
embedding is a pure function of the builder state, the scorer functions and
the arguments — no hidden source of nondeterminism exists in
`link_new_point` or `set_levels` — so two independent builders constructed
with the same parameters and driven through the same sequence of
`set_levels` and `link_new_point` calls (same pre-assigned levels, same
insertion order, same deterministic scorers) end with identical
`links_layers`, equal per layer in both content and element order. -/
theorem build_deterministic (nv m m0 efc epn : Nat) (uh : Bool) (ops : List BuildOp)
    (b1 b2 : GraphLinearBuilder)
    (h1 : b1 = GraphLinearBuilder.new nv m m0 efc epn uh)
    (h2 : b2 = GraphLinearBuilder.new nv m m0 efc epn uh) :
    (runOps b1 ops).linksLayers = (runOps b2 ops).linksLayers := by
  subst h1
  subst h2
  rfl

theorem build_deterministic_witness :
    (runOps (GraphLinearBuilder.new 2 2 4 16 10 false)
      [BuildOp.setLevels 0 0, BuildOp.setLevels 1 0,
       BuildOp.linkNewPoint 0 cScorer, BuildOp.linkNewPoint 1 cScorer]).linksLayers =
    (runOps (GraphLinearBuilder.new 2 2 4 16 10 false)
      [BuildOp.setLevels 0 0, BuildOp.setLevels 1 0,
       BuildOp.linkNewPoint 0 cScorer, BuildOp.linkNewPoint 1 cScorer]).linksLayers :=
  build_deterministic 2 2 4 16 10 false
    [BuildOp.setLevels 0 0, BuildOp.setLevels 1 0,
     BuildOp.linkNewPoint 0 cScorer, BuildOp.linkNewPoint 1 cScorer]
    _ _ rfl rfl

theorem search_on_level_terminates_witness :
    (searchOnLevelRun (GraphLinearBuilder.new 1 2 4 16 10 true) ⟨0, 0⟩ 0 4
      cScorer).2.2.2 = true ∧
    (searchOnLevelRun (GraphLinearBuilder.new 1 2 4 16 10 true) ⟨0, 0⟩ 0 4
      cScorer).2.2.1 ≤ (GraphLinearBuilder.new 1 2 4 16 10 true).linksLayers.length :=
  search_on_level_terminates (GraphLinearBuilder.new 1 2 4 16 10 true) cScorer
    ⟨0, 0⟩ 0 4
    (by
      intro p l x hx
      rw [linksAt_new] at hx
      simp at hx)
    (by decide)
